import Mathlib

/-!
# Verification of `scripts/metrics_trends.py`

A shallow embedding of the scoring and trend-aggregation core of
`scripts/metrics_trends.py`.  JSON-like dynamic values are modelled by `JVal`,
Python's lenient coercions (`int(v)`, `float(v)`, truthiness) are modelled
explicitly, fallible code paths (attribute errors, type errors, value errors)
return `Except Unit`, and machine floats are modelled by `ℚ`.
-/

/-- A JSON-like dynamic value, as produced by `json.loads` and consumed by the
script.  Python distinguishes `int` and `float`; both are carried exactly,
with floats modelled by `ℚ`. -/
inductive JVal : Type where
  | null : JVal
  | bool (b : Bool) : JVal
  | int (n : ℤ) : JVal
  | float (q : ℚ) : JVal
  | str (s : String) : JVal
  | arr (xs : List JVal) : JVal
  | obj (kvs : List (String × JVal)) : JVal

/-- Python truthiness: `None`, `False`, `0`, `0.0`, `""`, `[]`, `{}` are falsy,
everything else is truthy. -/
def truthy : JVal → Bool
  | .null => false
  | .bool b => b
  | .int n => !(n == 0)
  | .float q => !(q == 0)
  | .str s => !s.isEmpty
  | .arr xs => !xs.isEmpty
  | .obj kvs => !kvs.isEmpty

/-- Truthiness of an optional value; Python's `None` (a missing `dict.get`)
is falsy. -/
def truthyO : Option JVal → Bool
  | none => false
  | some v => truthy v

/-- Total field lookup on an object; `none` when the receiver is not a dict or
the key is absent.  Mirrors `m.get(k)` on an actual dict. -/
def getField (m : JVal) (k : String) : Option JVal :=
  match m with
  | .obj kvs => kvs.lookup k
  | _ => none

/-- `m.get(k)` as executed by Python: raises (`AttributeError`) when the
receiver is not a dict. -/
def pyGetO (m : JVal) (k : String) : Except Unit (Option JVal) :=
  match m with
  | .obj kvs => .ok (kvs.lookup k)
  | _ => .error ()

/-- Python iteration `for x in v`: lists yield their elements, strings yield
their one-character strings, dicts yield their keys; other values raise
`TypeError`. -/
def pyIter : JVal → Except Unit (List JVal)
  | .arr xs => .ok xs
  | .str s => .ok (s.toList.map (fun c => .str (String.singleton c)))
  | .obj kvs => .ok (kvs.map (fun kv => .str kv.1))
  | _ => .error ()

/-- Value of a digit list, most significant first (assumes digits). -/
def natOfDigits (cs : List Char) : ℕ :=
  cs.foldl (fun acc c => acc * 10 + (c.toNat - 48)) 0

/-- A nonempty all-digit character list, or `none`. -/
def digitsToNat (cs : List Char) : Option ℕ :=
  if cs.isEmpty then none
  else if cs.all (·.isDigit) then some (natOfDigits cs) else none

/-- Python `int(s)` on a string: optional sign and decimal digits after
stripping surrounding whitespace (the underscore-separator extension is not
modelled). -/
def intParse (s : String) : Option ℤ :=
  match s.trim.toList with
  | '-' :: cs => (digitsToNat cs).map (fun n => -(n : ℤ))
  | '+' :: cs => (digitsToNat cs).map (fun n => (n : ℤ))
  | cs => (digitsToNat cs).map (fun n => (n : ℤ))

/-- Split a character list at the first `'.'`. -/
def splitDot : List Char → List Char × Option (List Char)
  | [] => ([], none)
  | '.' :: cs => ([], some cs)
  | c :: cs => let p := splitDot cs; (c :: p.1, p.2)

/-- Magnitude of a decimal float literal: `digits`, `digits.digits`,
`digits.` or `.digits`. -/
def floatMag (cs : List Char) : Option ℚ :=
  let p := splitDot cs
  match p.2 with
  | none => (digitsToNat p.1).map (fun n => (n : ℚ))
  | some fp =>
      if p.1.isEmpty && fp.isEmpty then none
      else if p.1.all (·.isDigit) && fp.all (·.isDigit) then
        some ((natOfDigits p.1 : ℚ) + (natOfDigits fp : ℚ) / (10 ^ fp.length))
      else none

/-- Python `float(s)` on a string: signed decimal literal after stripping
whitespace (exponent, `inf` and `nan` forms are not modelled). -/
def floatParse (s : String) : Option ℚ :=
  match s.trim.toList with
  | '-' :: cs => (floatMag cs).map (fun q => -q)
  | '+' :: cs => floatMag cs
  | cs => floatMag cs

/-- Integer truncation toward zero, as Python `int()` applied to a float. -/
def ratTrunc (q : ℚ) : ℤ :=
  if 0 ≤ q then ⌊q⌋ else ⌈q⌉

/-- Python `int(v)`: exact on ints and bools, truncating on floats, parsing
on strings; raises (`TypeError`/`ValueError`) on everything else, including
`None`. -/
def int_exn : Option JVal → Except Unit ℤ
  | some (.bool b) => .ok (if b then 1 else 0)
  | some (.int n) => .ok n
  | some (.float q) => .ok (ratTrunc q)
  | some (.str s) =>
      match intParse s with
      | some n => .ok n
      | none => .error ()
  | _ => .error ()

/-- Python `float(v)`: exact on numbers and bools, parsing on strings;
raises on everything else. -/
def float_exn : Option JVal → Except Unit ℚ
  | some (.bool b) => .ok (if b then 1 else 0)
  | some (.int n) => .ok (n : ℚ)
  | some (.float q) => .ok q
  | some (.str s) =>
      match floatParse s with
      | some q => .ok q
      | none => .error ()
  | _ => .error ()

/-- `safe_int` from the script: `int(v)`, with any exception replaced by the
default `0`. -/
def safe_int (v : Option JVal) : ℤ :=
  match int_exn v with
  | .ok n => n
  | .error _ => 0

/-- `clamp` from the script. -/
def clamp (x lo hi : ℚ) : ℚ :=
  max lo (min hi x)

/-- `pct` from the script: a ratio that degrades to `0.0` on a non-positive
denominator. -/
def pct (n d : ℤ) : ℚ :=
  if 0 < d then (n : ℚ) / (d : ℚ) else 0

/-- `avg` from the script: arithmetic mean, `0.0` on the empty list. -/
def avg (vals : List ℚ) : ℚ :=
  if vals.isEmpty then 0 else vals.sum / vals.length

/-- Python `max` on a list, meaningful only for nonempty input (Python raises
on an empty argument; the script only applies it to nonempty lists). -/
def listMax : List ℚ → ℚ
  | [] => 0
  | h :: t => t.foldl max h

/-- Python `==` as used by `set` membership on hashable JSON scalars:
numeric values (including `bool`) compare by value across types, other
scalars compare structurally.  Unhashable values (lists, dicts) never reach
a set, so they are never equal here. -/
def numVal : JVal → Option ℚ
  | .bool b => some (if b then 1 else 0)
  | .int n => some (n : ℚ)
  | .float q => some q
  | _ => none

/-- Python equality on set elements; see `numVal`. -/
def pyEq (a b : JVal) : Bool :=
  match numVal a, numVal b with
  | some x, some y => x == y
  | _, _ =>
      match a, b with
      | .null, .null => true
      | .str s, .str t => s == t
      | _, _ => false

/-- `hosts.add(v)`: raises `TypeError` on unhashable values, otherwise adds
`v` to the set (modelled as a duplicate-free list in insertion order). -/
def sourceAdd (acc : List JVal) (v : JVal) : Except Unit (List JVal) :=
  match v with
  | .arr _ => .error ()
  | .obj _ => .error ()
  | _ => .ok (if acc.any (fun w => pyEq w v) then acc else acc ++ [v])

/-- Inner loop of `collect_hosts`: `for s in t.get("sources", [])`. -/
def hostsFromSources (acc : List JVal) : List JVal → Except Unit (List JVal)
  | [] => .ok acc
  | s :: ss => do
      let v ← pyGetO s "source"
      if truthyO v then do
        let acc2 ← sourceAdd acc (v.getD .null)
        hostsFromSources acc2 ss
      else
        hostsFromSources acc ss

/-- Outer loop of `collect_hosts`: `for t in metrics.get("tabs", [])`. -/
def hostsFromTabs (acc : List JVal) : List JVal → Except Unit (List JVal)
  | [] => .ok acc
  | t :: ts => do
      let sv ← pyGetO t "sources"
      let ss ← pyIter (sv.getD (.arr []))
      let acc2 ← hostsFromSources acc ss
      hostsFromTabs acc2 ts

/-- `collect_hosts` from the script: the number of distinct truthy `source`
values across all tabs. -/
def collect_hosts (metrics : JVal) : Except Unit ℕ :=
  match metrics with
  | .obj _ => do
      let ts ← pyIter ((getField metrics "tabs").getD (.arr []))
      let hosts ← hostsFromTabs [] ts
      .ok hosts.length
  | _ => .error ()

/-- Hour-collection loop of `freshness_penalty`: appends `float(h)` for each
tab whose `freshnessUsed` is truthy.  The bare `float(h)` call raises on a
truthy value that is not numeric and not a parseable numeric string. -/
def freshnessHours : List JVal → Except Unit (List ℚ)
  | [] => .ok []
  | t :: ts => do
      let h ← pyGetO t "freshnessUsed"
      if truthyO h then do
        let q ← float_exn h
        let rest ← freshnessHours ts
        .ok (q :: rest)
      else
        freshnessHours ts

/-- `freshness_penalty` from the script. -/
def freshness_penalty (metrics : JVal) : Except Unit ℚ :=
  match metrics with
  | .obj _ => do
      let ts ← pyIter ((getField metrics "tabs").getD (.arr []))
      let hours ← freshnessHours ts
      if hours.isEmpty then .ok 0
      else
        let over := hours.filter (fun h => 24 < h)
        if over.isEmpty then .ok 0
        else .ok (clamp ((listMax over - 24) / 24) 0 1)
  | _ => .error ()

/-- The weight configuration dataclass from the script. -/
structure Weights : Type where
  run_success : ℚ
  tab_completion : ℚ
  rss_errors : ℚ
  freshness_penalty : ℚ
  ai_strict_rate : ℚ
  off_topic_penalty : ℚ
  duplication_penalty : ℚ
  host_diversity : ℚ
deriving DecidableEq

/-- The module-level weight configuration `W = Weights()` with its default
values. -/
def W : Weights :=
  ⟨12, 12, 10, 6, 25, 15, 10, 10⟩

def MAX_RSS_ERRORS_FOR_FULL_SCORE : ℤ := 5

def MAX_OFFTOPIC_RATE : ℚ := 20 / 100

def MAX_DUP_RATE : ℚ := 20 / 100

def TARGET_HOST_DIVERSITY : ℤ := 10

/-- Sum of the eight weights, the nominal score ceiling. -/
def sumWeights (w : Weights) : ℚ :=
  w.run_success + w.tab_completion + w.rss_errors + w.freshness_penalty +
    w.ai_strict_rate + w.off_topic_penalty + w.duplication_penalty + w.host_diversity

/-- All eight weights are non-negative. -/
def NonnegWeights (w : Weights) : Prop :=
  0 ≤ w.run_success ∧ 0 ≤ w.tab_completion ∧ 0 ≤ w.rss_errors ∧
    0 ≤ w.freshness_penalty ∧ 0 ≤ w.ai_strict_rate ∧ 0 ≤ w.off_topic_penalty ∧
    0 ≤ w.duplication_penalty ∧ 0 ≤ w.host_diversity

instance (w : Weights) : Decidable (NonnegWeights w) := by
  unfold NonnegWeights; infer_instance

/-- Round half to even at integer precision, as Python's `round`. -/
def rhe (x : ℚ) : ℤ :=
  if x - ⌊x⌋ < 1 / 2 then ⌊x⌋
  else if 1 / 2 < x - ⌊x⌋ then ⌊x⌋ + 1
  else if ⌊x⌋ % 2 = 0 then ⌊x⌋ else ⌊x⌋ + 1

/-- Python `round(x, 2)`. -/
def round2 (x : ℚ) : ℚ :=
  (rhe (x * 100) : ℚ) / 100

/-- The diagnostics dict returned by `score_day` alongside the score. -/
structure Diag : Type where
  tabsTotal : ℤ
  thinTabs : ℤ
  noUpdateTabs : ℤ
  rssErrors : ℤ
  aiStrictRate : ℚ
  offTopicRate : ℚ
  dupRate : ℚ
  hostCount : ℤ
  freshnessPenalty : ℚ
deriving DecidableEq

/-- The run-success term of `score_day`:
`W.run_success * (1 if m.get("runSuccess") else 0)`. -/
def runContribution (w : Weights) (m : JVal) : ℚ :=
  w.run_success * (if truthyO (getField m "runSuccess") then 1 else 0)

/-- The duplication term of `score_day`:
`W.duplication_penalty * (1 - clamp(dup_rate / MAX_DUP_RATE))`. -/
def dupContribution (w : Weights) (dup_rate : ℚ) : ℚ :=
  w.duplication_penalty * (1 - clamp (dup_rate / MAX_DUP_RATE) 0 1)

/-- `score_day` from the script, parameterized by the weight configuration it
reads from the module-level `W`.  The receiver must be a dict (otherwise the
first `m.get` raises); `collect_hosts` runs only when the explicit
`hostCount` coerces to a falsy (zero) int, and `freshness_penalty` always
runs; either can raise on malformed nested structure. -/
def score_day (w : Weights) (m : JVal) : Except Unit (ℚ × Diag) :=
  match m with
  | .obj _ => do
      let tabs_total := safe_int (getField m "tabsTotal")
      let thin := safe_int (getField m "thinTabs")
      let empty := safe_int (getField m "noUpdateTabs")
      let rss := safe_int (getField m "rssErrors")
      let picked := safe_int (getField m "pickedItemsTotal")
      let ai_strict := safe_int (getField m "aiStrictCount")
      let off := safe_int (getField m "offTopicCount")
      let dup := safe_int (getField m "dupCount")
      let hc := safe_int (getField m "hostCount")
      let hosts ← if hc = 0 then (fun n => (n : ℤ)) <$> collect_hosts m else pure hc
      let ai_rate := pct ai_strict picked
      let off_rate := pct off picked
      let dup_rate := pct dup (max 1 picked)
      let s_run := runContribution w m
      let pen_tabs : ℚ :=
        if tabs_total = 0 then 1
        else ((thin : ℚ) * (12 / 100) + (empty : ℚ) * (30 / 100)) / (tabs_total : ℚ)
      let s_tabs := w.tab_completion * clamp (1 - pen_tabs) 0 1
      let s_rss := w.rss_errors *
        clamp (1 - (rss : ℚ) / ((MAX_RSS_ERRORS_FOR_FULL_SCORE : ℚ) * 2)) 0 1
      let fp ← freshness_penalty m
      let s_fresh := w.freshness_penalty * (1 - fp)
      let s_ai := w.ai_strict_rate * ai_rate
      let s_off := w.off_topic_penalty * (1 - clamp (off_rate / MAX_OFFTOPIC_RATE) 0 1)
      let s_dup := dupContribution w dup_rate
      let s_hosts := w.host_diversity * clamp ((hosts : ℚ) / (TARGET_HOST_DIVERSITY : ℚ)) 0 1
      let score := round2 (s_run + s_tabs + s_rss + s_fresh + s_ai + s_off + s_dup + s_hosts)
      .ok (score,
        { tabsTotal := tabs_total, thinTabs := thin, noUpdateTabs := empty,
          rssErrors := rss, aiStrictRate := ai_rate, offTopicRate := off_rate,
          dupRate := dup_rate, hostCount := hosts, freshnessPenalty := fp })
  | _ => .error ()

/-- Successful result of an `Except Unit` computation, as an `Option`. -/
def okOf {α : Type} : Except Unit α → Option α
  | .ok a => some a
  | .error _ => none

/-- A scored row of the trend dataset, as assembled in `main`:
`{"date": date, "score": score, **dbg}`. -/
structure Row : Type where
  date : String
  score : ℚ
  diag : Diag
deriving DecidableEq

/-- Stable insertion of `a` into `l`: `a` goes after every element `b` with
`le b a`, so elements comparing equal to `a` keep their earlier position. -/
def insertByLE {α : Type} (le : α → α → Bool) (a : α) : List α → List α
  | [] => [a]
  | b :: l => if le b a then b :: insertByLE le a l else a :: b :: l

/-- Python's stable `sorted(·, key=...)` (any two stable sorts by the same
key agree, so insertion sort is extensionally Timsort). -/
def stableSortBy {α : Type} (le : α → α → Bool) (l : List α) : List α :=
  l.foldl (fun acc a => insertByLE le a acc) []

/-- Comparison by score, the key of the worst-N sort. -/
def scoreLE (a b : Row) : Bool :=
  decide (a.score ≤ b.score)

/-- Comparison by date string, the key of the chronological sort. -/
def dateLE (a b : Row) : Bool :=
  decide (a.date ≤ b.date)

/-- `sorted(rows, key=lambda r: r["score"])`. -/
def sortByScore (rows : List Row) : List Row :=
  stableSortBy scoreLE rows

/-- The worst-`n` view: score-ascending stable sort, then the first `n`
elements (the script takes `n = 3`). -/
def worstN (rows : List Row) (n : ℕ) : List Row :=
  (sortByScore rows).take n

/-- The trailing-`k` average: `avg([r["score"] for r in rows[-k:]])`
(the script takes `k = 7`). -/
def trailingAvg (rows : List Row) (k : ℕ) : ℚ :=
  avg ((rows.drop (rows.length - k)).map Row.score)

/-- The derived views `main` computes from the scored rows. -/
structure AggResult : Type where
  rows : List Row
  latest : Option Row
  score7 : ℚ
  worst : List Row
deriving DecidableEq

/-- The aggregation core of `main` (lines 183-213): on an empty collection it
reports no data (`None`) and emits nothing; otherwise it sorts by date and
derives the latest row, the trailing-7 average and the worst-3 list. -/
def aggregate (rows : List Row) : Option AggResult :=
  if rows.isEmpty then none
  else
    let sorted := stableSortBy dateLE rows
    some { rows := sorted, latest := sorted.getLast?,
           score7 := trailingAvg sorted 7, worst := worstN sorted 3 }

/-- Tab-completion penalty of `score_day`, expressed over the diagnostics. -/
def penTabs (d : Diag) : ℚ :=
  if d.tabsTotal = 0 then 1
  else ((d.thinTabs : ℚ) * (12 / 100) + (d.noUpdateTabs : ℚ) * (30 / 100)) / (d.tabsTotal : ℚ)

/-- The unrounded composite score, expressed over the record and its
diagnostics. -/
def scoreFrom (w : Weights) (m : JVal) (d : Diag) : ℚ :=
  runContribution w m + w.tab_completion * clamp (1 - penTabs d) 0 1 +
    w.rss_errors * clamp (1 - (d.rssErrors : ℚ) / ((MAX_RSS_ERRORS_FOR_FULL_SCORE : ℚ) * 2)) 0 1 +
    w.freshness_penalty * (1 - d.freshnessPenalty) +
    w.ai_strict_rate * d.aiStrictRate +
    w.off_topic_penalty * (1 - clamp (d.offTopicRate / MAX_OFFTOPIC_RATE) 0 1) +
    dupContribution w d.dupRate +
    w.host_diversity * clamp ((d.hostCount : ℚ) / (TARGET_HOST_DIVERSITY : ℚ)) 0 1

/-- Inversion of a successful `score_day`: every diagnostics field is the
corresponding extracted value and the score is the rounded composite. -/
theorem score_day_ok_inv (w : Weights) (m : JVal) (s : ℚ) (d : Diag)
    (h : score_day w m = .ok (s, d)) :
    freshness_penalty m = .ok d.freshnessPenalty ∧
    d.tabsTotal = safe_int (getField m "tabsTotal") ∧
    d.thinTabs = safe_int (getField m "thinTabs") ∧
    d.noUpdateTabs = safe_int (getField m "noUpdateTabs") ∧
    d.rssErrors = safe_int (getField m "rssErrors") ∧
    d.aiStrictRate = pct (safe_int (getField m "aiStrictCount")) (safe_int (getField m "pickedItemsTotal")) ∧
    d.offTopicRate = pct (safe_int (getField m "offTopicCount")) (safe_int (getField m "pickedItemsTotal")) ∧
    d.dupRate = pct (safe_int (getField m "dupCount")) (max 1 (safe_int (getField m "pickedItemsTotal"))) ∧
    (safe_int (getField m "hostCount") ≠ 0 → d.hostCount = safe_int (getField m "hostCount")) ∧
    (safe_int (getField m "hostCount") = 0 → ∃ n, collect_hosts m = .ok n ∧ d.hostCount = (n : ℤ)) ∧
    s = round2 (scoreFrom w m d) := by
  cases m with
  | obj kvs =>
    rw [score_day] at h
    by_cases hhc : safe_int (getField (.obj kvs) "hostCount") = 0
    · cases hch : collect_hosts (.obj kvs) with
      | error e =>
        simp [hhc, hch, Except.map, bind, Except.bind, pure, Except.pure] at h
      | ok n =>
        cases hfp : freshness_penalty (.obj kvs) with
        | error e =>
          simp [hhc, hch, hfp, Except.map, bind, Except.bind, pure, Except.pure] at h
        | ok fp =>
          simp only [hhc, hch, hfp, if_pos, Functor.map, Except.map, bind, Except.bind,
            pure, Except.pure, Except.ok.injEq, Prod.mk.injEq] at h
          obtain ⟨hs, hd⟩ := h
          subst hs
          subst hd
          refine ⟨?_, rfl, rfl, rfl, rfl, rfl, rfl, rfl,
            fun hc => absurd hhc hc, fun _ => ⟨n, ?_, rfl⟩, ?_⟩
          · rfl
          · rfl
          · simp [scoreFrom, penTabs]
    · cases hfp : freshness_penalty (.obj kvs) with
      | error e =>
        simp [hhc, hfp, Except.map, bind, Except.bind, pure, Except.pure] at h
      | ok fp =>
        simp only [hhc, hfp, if_neg, Except.map, bind, Except.bind,
          pure, Except.pure, Except.ok.injEq, Prod.mk.injEq] at h
        simp only [hhc, hfp, if_false, ite_false, Functor.map, Except.map, bind, Except.bind,
          pure, Except.pure, Except.ok.injEq, Prod.mk.injEq] at h
        obtain ⟨hs, hd⟩ := h
        subst hs
        subst hd
        refine ⟨?_, rfl, rfl, rfl, rfl, rfl, rfl, rfl,
          fun _ => rfl, fun hc => absurd hc hhc, ?_⟩
        · rfl
        · simp [scoreFrom, penTabs]
  | null => simp [score_day] at h
  | bool b => simp [score_day] at h
  | int n => simp [score_day] at h
  | float q => simp [score_day] at h
  | str s => simp [score_day] at h
  | arr xs => simp [score_day] at h

lemma clamp01_nonneg (x : ℚ) : 0 ≤ clamp x 0 1 :=
  le_max_left 0 _

lemma clamp01_le_one (x : ℚ) : clamp x 0 1 ≤ 1 :=
  max_le (by norm_num) (min_le_left 1 x)

lemma unit_mul_nonneg (w c : ℚ) (hw : 0 ≤ w) (h0 : 0 ≤ c) : 0 ≤ w * c :=
  mul_nonneg hw h0

lemma unit_mul_le (w c : ℚ) (hw : 0 ≤ w) (h1 : c ≤ 1) : w * c ≤ w :=
  mul_le_of_le_one_right hw h1

/-- A successful freshness penalty always lies in `[0, 1]`. -/
lemma freshness_penalty_mem (m : JVal) (fp : ℚ) (h : freshness_penalty m = .ok fp) :
    0 ≤ fp ∧ fp ≤ 1 := by
  cases m with
  | obj kvs =>
    rw [freshness_penalty] at h
    cases hit : pyIter ((getField (.obj kvs) "tabs").getD (.arr [])) with
    | error e => simp [hit, bind, Except.bind] at h
    | ok ts =>
      cases hh : freshnessHours ts with
      | error e => simp [hit, hh, bind, Except.bind] at h
      | ok hours =>
        simp only [hit, hh, bind, Except.bind] at h
        by_cases he : hours.isEmpty
        · simp only [he, if_true, Except.ok.injEq] at h
          subst h; norm_num
        · simp only [he, if_false, ite_false, Bool.false_eq_true] at h
          by_cases ho : (hours.filter (fun h => 24 < h)).isEmpty
          · simp only [ho, if_true, Except.ok.injEq] at h
            subst h; norm_num
          · simp only [ho, if_false, ite_false, Bool.false_eq_true, Except.ok.injEq] at h
            subst h
            exact ⟨clamp01_nonneg _, clamp01_le_one _⟩
  | null => simp [freshness_penalty] at h
  | bool b => simp [freshness_penalty] at h
  | int n => simp [freshness_penalty] at h
  | float q => simp [freshness_penalty] at h
  | str s => simp [freshness_penalty] at h
  | arr xs => simp [freshness_penalty] at h

lemma rhe_le (x : ℚ) : (rhe x : ℚ) ≤ x + 1 / 2 := by
  have h1 := Int.floor_le x
  have h2 := Int.lt_floor_add_one x
  rw [rhe]
  split
  · linarith
  · split
    · push_cast
      linarith
    · split
      · linarith
      · push_cast
        linarith

lemma rhe_nonneg (x : ℚ) (hx : 0 ≤ x) : 0 ≤ (rhe x : ℚ) := by
  have h0 : (0 : ℚ) ≤ (⌊x⌋ : ℚ) := by
    exact_mod_cast Int.floor_nonneg.mpr hx
  rw [rhe]
  split
  · exact h0
  · split
    · push_cast
      linarith
    · split
      · exact h0
      · push_cast
        linarith

lemma round2_nonneg (x : ℚ) (hx : 0 ≤ x) : 0 ≤ round2 x := by
  rw [round2]
  have := rhe_nonneg (x * 100) (by nlinarith)
  positivity

lemma round2_le (x : ℚ) : round2 x ≤ x + 1 / 200 := by
  rw [round2, div_le_iff₀ (by norm_num : (0 : ℚ) < 100)]
  have := rhe_le (x * 100)
  linarith

/-- All eight weighted terms of the composite are individually within
`[0, weight]` once the AI-strict rate is within `[0, 1]`. -/
lemma scoreFrom_bounds (w : Weights) (m : JVal) (d : Diag) (hw : NonnegWeights w)
    (hfp0 : 0 ≤ d.freshnessPenalty) (hfp1 : d.freshnessPenalty ≤ 1)
    (hai0 : 0 ≤ d.aiStrictRate) (hai1 : d.aiStrictRate ≤ 1) :
    0 ≤ scoreFrom w m d ∧ scoreFrom w m d ≤ sumWeights w := by
  obtain ⟨w1, w2, w3, w4, w5, w6, w7, w8⟩ := hw
  have hrun0 : 0 ≤ runContribution w m := by
    rw [runContribution]; split <;> simp [w1]
  have hrun1 : runContribution w m ≤ w.run_success := by
    rw [runContribution]; split <;> simp [w1]
  have t2 := clamp01_nonneg (1 - penTabs d)
  have t2b := clamp01_le_one (1 - penTabs d)
  have t3 := clamp01_nonneg (1 - (d.rssErrors : ℚ) / ((MAX_RSS_ERRORS_FOR_FULL_SCORE : ℚ) * 2))
  have t3b := clamp01_le_one (1 - (d.rssErrors : ℚ) / ((MAX_RSS_ERRORS_FOR_FULL_SCORE : ℚ) * 2))
  have t6 := clamp01_nonneg (d.offTopicRate / MAX_OFFTOPIC_RATE)
  have t6b := clamp01_le_one (d.offTopicRate / MAX_OFFTOPIC_RATE)
  have t7 := clamp01_nonneg (d.dupRate / MAX_DUP_RATE)
  have t7b := clamp01_le_one (d.dupRate / MAX_DUP_RATE)
  have t8 := clamp01_nonneg ((d.hostCount : ℚ) / (TARGET_HOST_DIVERSITY : ℚ))
  have t8b := clamp01_le_one ((d.hostCount : ℚ) / (TARGET_HOST_DIVERSITY : ℚ))
  rw [scoreFrom, sumWeights, dupContribution]
  constructor <;> nlinarith [mul_nonneg w2 t2, mul_le_of_le_one_right w2 t2b,
    mul_nonneg w3 t3, mul_le_of_le_one_right w3 t3b,
    mul_nonneg w4 (by linarith : (0 : ℚ) ≤ 1 - d.freshnessPenalty),
    mul_le_of_le_one_right w4 (by linarith : 1 - d.freshnessPenalty ≤ 1),
    mul_nonneg w5 hai0, mul_le_of_le_one_right w5 hai1,
    mul_nonneg w6 (by linarith : (0 : ℚ) ≤ 1 - clamp (d.offTopicRate / MAX_OFFTOPIC_RATE) 0 1),
    mul_le_of_le_one_right w6 (by linarith : 1 - clamp (d.offTopicRate / MAX_OFFTOPIC_RATE) 0 1 ≤ 1),
    mul_nonneg w7 (by linarith : (0 : ℚ) ≤ 1 - clamp (d.dupRate / MAX_DUP_RATE) 0 1),
    mul_le_of_le_one_right w7 (by linarith : 1 - clamp (d.dupRate / MAX_DUP_RATE) 0 1 ≤ 1),
    mul_nonneg w8 t8, mul_le_of_le_one_right w8 t8b]

/-- C1 (amended): for any record and non-negative weights, whenever the
derived AI-strict rate lies in `[0, 1]`, the score is within
`[0, sum of the weights]` up to a rounding overshoot of at most `0.01`. -/
theorem score_day_bounds (w : Weights) (m : JVal) (s : ℚ) (d : Diag)
    (hw : NonnegWeights w) (h : score_day w m = .ok (s, d))
    (hai0 : 0 ≤ d.aiStrictRate) (hai1 : d.aiStrictRate ≤ 1) :
    0 ≤ s ∧ s ≤ sumWeights w + 1 / 100 := by
  obtain ⟨hfp, -, -, -, -, -, -, -, -, -, hs⟩ := score_day_ok_inv w m s d h
  obtain ⟨hfp0, hfp1⟩ := freshness_penalty_mem m d.freshnessPenalty hfp
  obtain ⟨hlo, hhi⟩ := scoreFrom_bounds w m d hw hfp0 hfp1 hai0 hai1
  subst hs
  constructor
  · exact round2_nonneg _ hlo
  · have := round2_le (scoreFrom w m d)
    linarith

def cex1 : JVal := .obj [("pickedItemsTotal", .int 1), ("aiStrictCount", .int 10)]

def cex1Diag : Diag := ⟨0, 0, 0, 0, 10, 0, 0, 0, 0⟩

/-- C1 (counterexample): with the default non-negative weights, the record
`{"pickedItemsTotal": 1, "aiStrictCount": 10}` has `aiStrictRate = 10 > 1`
and scores `291`, far above `sum(weights) + 0.01 = 100.01`. -/
theorem score_day_bounds_cex :
    okOf (score_day W cex1) = some (291, cex1Diag) ∧
    NonnegWeights W ∧ sumWeights W = 100 ∧
    cex1Diag.aiStrictRate = 10 ∧ ¬ ((291 : ℚ) ≤ sumWeights W + 1 / 100) := by
  refine ⟨by with_unfolding_all rfl, ?_, by norm_num [sumWeights, W], by norm_num [cex1Diag], ?_⟩
  · refine ⟨?_, ?_, ?_, ?_, ?_, ?_, ?_, ?_⟩ <;> norm_num [W]
  · norm_num [sumWeights, W]

def wit1 : JVal := .obj [("runSuccess", .bool true), ("tabsTotal", .int 10),
  ("pickedItemsTotal", .int 10), ("aiStrictCount", .int 5)]

def wit1Diag : Diag := ⟨10, 0, 0, 0, 1 / 2, 0, 0, 0, 0⟩

/-- Witness for `score_day_bounds` at a concrete record with rate `1/2`. -/
theorem score_day_bounds_witness :
    NonnegWeights W ∧ score_day W wit1 = .ok (155 / 2, wit1Diag) ∧
    0 ≤ (155 / 2 : ℚ) ∧ (155 / 2 : ℚ) ≤ sumWeights W + 1 / 100 := by
  have h : score_day W wit1 = .ok (155 / 2, wit1Diag) := by with_unfolding_all rfl
  have hw : NonnegWeights W := by
    refine ⟨?_, ?_, ?_, ?_, ?_, ?_, ?_, ?_⟩ <;> norm_num [W]
  have := score_day_bounds W wit1 (155 / 2) wit1Diag hw h
    (by norm_num [wit1Diag]) (by norm_num [wit1Diag])
  exact ⟨hw, h, this.1, this.2⟩

def cex2 : JVal := .obj [("tabs", .arr [.obj [("freshnessUsed", .str "abc")]])]

/-- C2 (counterexample): a record whose only tab carries the truthy but
non-numeric `freshnessUsed` value `"abc"` makes the bare `float(h)` call in
`freshness_penalty` raise, and `score_day` propagates the exception instead
of returning normally. -/
theorem score_day_raises_cex :
    okOf (score_day W cex2) = none ∧ freshness_penalty cex2 = .error () := by
  exact ⟨by with_unfolding_all rfl, by with_unfolding_all rfl⟩

/-- A record on which `score_day` cannot raise: it is a dict and both nested
traversals (`freshness_penalty` and `collect_hosts`) return normally.
Top-level scalar fields are irrelevant: `safe_int` catches their coercion
failures and substitutes the default. -/
def wellFormedRec (m : JVal) : Bool :=
  (match m with
   | .obj _ => true
   | _ => false) &&
  (okOf (freshness_penalty m)).isSome && (okOf (collect_hosts m)).isSome

/-- C2 (amended): `score_day` returns normally on every well-formed record,
whatever its top-level scalar fields hold. -/
theorem score_day_total_on_wellformed (w : Weights) (m : JVal)
    (h : wellFormedRec m = true) : ∃ s d, score_day w m = .ok (s, d) := by
  cases m with
  | obj kvs =>
    rw [wellFormedRec] at h
    simp only [Bool.and_eq_true] at h
    obtain ⟨⟨-, hfp⟩, hch⟩ := h
    cases hf : freshness_penalty (.obj kvs) with
    | error e => rw [hf] at hfp; simp [okOf] at hfp
    | ok fp =>
      cases hc : collect_hosts (.obj kvs) with
      | error e => rw [hc] at hch; simp [okOf] at hch
      | ok n =>
        rw [score_day]
        by_cases hhc : safe_int (getField (.obj kvs) "hostCount") = 0
        · simp only [hhc, if_true, hc, hf, Functor.map, Except.map, bind, Except.bind,
            pure, Except.pure]
          exact ⟨_, _, rfl⟩
        · simp only [hhc, if_false, ite_false, hf, Functor.map, Except.map, bind, Except.bind,
            pure, Except.pure]
          exact ⟨_, _, rfl⟩
  | null => simp [wellFormedRec] at h
  | bool b => simp [wellFormedRec] at h
  | int n => simp [wellFormedRec] at h
  | float q => simp [wellFormedRec] at h
  | str s => simp [wellFormedRec] at h
  | arr xs => simp [wellFormedRec] at h

def wit2 : JVal := .obj [("tabsTotal", .str "xx"), ("runSuccess", .null),
  ("pickedItemsTotal", .arr []),
  ("tabs", .arr [.obj [("freshnessUsed", .int 30),
    ("sources", .arr [.obj [("source", .str "a.com")]])]])]

/-- Witness for `score_day_total_on_wellformed`: a record with malformed
top-level scalars but well-formed tabs scores normally. -/
theorem score_day_total_on_wellformed_witness :
    wellFormedRec wit2 = true ∧ ∃ s d, score_day W wit2 = .ok (s, d) := by
  have h : wellFormedRec wit2 = true := by with_unfolding_all rfl
  exact ⟨h, score_day_total_on_wellformed W wit2 h⟩

/-- The per-tab hours actually reported by a record: the values collected by
the loop at the top of `freshness_penalty`. -/
def reportedHours (metrics : JVal) : Except Unit (List ℚ) :=
  match metrics with
  | .obj _ => do
      let ts ← pyIter ((getField metrics "tabs").getD (.arr []))
      freshnessHours ts
  | _ => .error ()

/-- The freshness rule in the spec's words: no reported value gives `0.0`;
otherwise only values exceeding the 24-hour threshold count, none gives
`0.0`, and otherwise the single worst stale value `worst` yields
`clamp((worst - 24) / 24, 0, 1)`. -/
def freshnessSpec (hs : List ℚ) : ℚ :=
  if hs.isEmpty then 0
  else
    let over := hs.filter (fun h => 24 < h)
    if over.isEmpty then 0
    else clamp ((listMax over - 24) / 24) 0 1

lemma foldl_max_choice (t : List ℚ) (a : ℚ) : t.foldl max a = a ∨ t.foldl max a ∈ t := by
  induction t generalizing a with
  | nil => exact Or.inl rfl
  | cons c t ih =>
    rcases ih (max a c) with h | h
    · rcases max_choice a c with hm | hm
      · exact Or.inl (by rw [List.foldl_cons, h, hm])
      · exact Or.inr (by rw [List.foldl_cons, h, hm]; exact List.mem_cons_self c t)
    · exact Or.inr (List.mem_cons_of_mem c h)

lemma listMax_mem (l : List ℚ) (h : l ≠ []) : listMax l ∈ l := by
  cases l with
  | nil => exact absurd rfl h
  | cons a t =>
    rcases foldl_max_choice t a with hc | hc
    · rw [listMax, hc]; exact List.mem_cons_self a t
    · exact List.mem_cons_of_mem a hc

lemma clamp01_pos (x : ℚ) (hx : 0 < x) : 0 < clamp x 0 1 :=
  lt_max_of_lt_right (lt_min (by norm_num) hx)

/-- C3: on every record whose hour collection succeeds, `freshness_penalty`
returns exactly the spec's rule applied to the reported hours; the result is
`0.0` iff no reported value exceeds 24 (in particular when none is
reported), and a single reported age of 48 yields penalty `1.0`. -/
theorem freshness_penalty_spec (m : JVal) (hs : List ℚ)
    (h : reportedHours m = .ok hs) :
    freshness_penalty m = .ok (freshnessSpec hs) ∧
    (freshnessSpec hs = 0 ↔ ∀ x ∈ hs, x ≤ 24) ∧
    freshnessSpec [48] = 1 := by
  refine ⟨?_, ?_, by with_unfolding_all rfl⟩
  · cases m with
    | obj kvs =>
      rw [reportedHours] at h
      cases hit : pyIter ((getField (.obj kvs) "tabs").getD (.arr [])) with
      | error e => rw [hit] at h; simp [bind, Except.bind] at h
      | ok ts =>
        rw [hit] at h
        simp only [bind, Except.bind] at h
        rw [freshness_penalty, hit]
        simp only [bind, Except.bind, h, freshnessSpec]
        split
        · rfl
        · split
          · rfl
          · rfl
    | null => simp [reportedHours] at h
    | bool b => simp [reportedHours] at h
    | int n => simp [reportedHours] at h
    | float q => simp [reportedHours] at h
    | str s => simp [reportedHours] at h
    | arr xs => simp [reportedHours] at h
  · rw [freshnessSpec]
    by_cases he : hs.isEmpty
    · simp only [he, if_true]
      have : hs = [] := by simpa [List.isEmpty_iff] using he
      subst this
      simp
    · simp only [he, if_false, ite_false, Bool.false_eq_true]
      by_cases ho : (hs.filter (fun h => 24 < h)).isEmpty
      · simp only [ho, if_true]
        have hall : ∀ x ∈ hs, ¬ (24 < x) := by
          rw [List.isEmpty_iff] at ho
          intro x hx hlt
          have : x ∈ hs.filter (fun h => 24 < h) := by
            simp [List.mem_filter, hx, hlt]
          rw [ho] at this
          simp at this
        constructor
        · intro _ x hx
          exact le_of_not_lt (hall x hx)
        · intro _
          trivial
      · simp only [ho, if_false, ite_false, Bool.false_eq_true]
        have hne : hs.filter (fun h => 24 < h) ≠ [] := by
          intro hcon
          rw [List.isEmpty_iff] at ho
          exact ho hcon
        have hmem := listMax_mem _ hne
        have hgt : 24 < listMax (hs.filter (fun h => 24 < h)) := by
          have := List.mem_filter.mp hmem
          simpa using this.2
        have hpos : 0 < clamp ((listMax (hs.filter (fun h => 24 < h)) - 24) / 24) 0 1 :=
          clamp01_pos _ (div_pos (by linarith) (by norm_num))
        constructor
        · intro hzero
          rw [hzero] at hpos
          exact absurd hpos (lt_irrefl 0)
        · intro hall
          have hx := List.mem_filter.mp hmem
          have := hall _ hx.1
          have h24 : (24 : ℚ) < 24 := lt_of_lt_of_le hgt this
          exact absurd h24 (lt_irrefl 24)

def wit3 : JVal := .obj [("tabs", .arr [.obj [("freshnessUsed", .int 48)]])]

/-- Witness for `freshness_penalty_spec`: one tab reporting 48 hours gives
penalty exactly `1.0`. -/
theorem freshness_penalty_spec_witness :
    reportedHours wit3 = .ok [48] ∧
    freshness_penalty wit3 = .ok (freshnessSpec [48]) ∧ freshnessSpec [48] = 1 := by
  have h : reportedHours wit3 = .ok [48] := by with_unfolding_all rfl
  have := freshness_penalty_spec wit3 [48] h
  exact ⟨h, this.1, this.2.2⟩

/-- C4: when `pickedItemsTotal` coerces to a non-positive int, the reported
AI-strict and off-topic rates are exactly `0.0`; the duplication rate always
divides by the denominator floored to `1`, so at `pickedItemsTotal = 0` it
equals `dupCount` itself. -/
theorem rates_nonpositive_denominator (w : Weights) (m : JVal) (s : ℚ) (d : Diag)
    (h : score_day w m = .ok (s, d)) :
    (safe_int (getField m "pickedItemsTotal") ≤ 0 →
      d.aiStrictRate = 0 ∧ d.offTopicRate = 0) ∧
    d.dupRate = (safe_int (getField m "dupCount") : ℚ) /
      ((max 1 (safe_int (getField m "pickedItemsTotal")) : ℤ) : ℚ) ∧
    (safe_int (getField m "pickedItemsTotal") = 0 →
      d.dupRate = (safe_int (getField m "dupCount") : ℚ)) := by
  obtain ⟨-, -, -, -, -, hai, hoff, hdup, -, -, -⟩ := score_day_ok_inv w m s d h
  have hdpos : (0 : ℤ) < max 1 (safe_int (getField m "pickedItemsTotal")) :=
    lt_of_lt_of_le one_pos (le_max_left 1 _)
  refine ⟨?_, ?_, ?_⟩
  · intro hle
    have hnp : ¬ (0 : ℤ) < safe_int (getField m "pickedItemsTotal") := not_lt.mpr hle
    rw [hai, hoff, pct, if_neg hnp, pct, if_neg hnp]
    exact ⟨rfl, rfl⟩
  · rw [hdup, pct, if_pos hdpos]
  · intro hz
    rw [hdup, pct, if_pos hdpos, hz]
    norm_num

def wit4 : JVal := .obj [("pickedItemsTotal", .int 0), ("offTopicCount", .int 3), ("dupCount", .int 5)]

def wit4Diag : Diag := ⟨0, 0, 0, 0, 0, 0, 5, 0, 0⟩

/-- Witness for `rates_nonpositive_denominator`: with `pickedItemsTotal = 0`
the rates are `0.0` and the duplication rate equals `dupCount = 5`. -/
theorem rates_nonpositive_denominator_witness :
    score_day W wit4 = .ok (31, wit4Diag) ∧
    (wit4Diag.aiStrictRate = 0 ∧ wit4Diag.offTopicRate = 0) ∧
    wit4Diag.dupRate = (safe_int (getField wit4 "dupCount") : ℚ) := by
  have h : score_day W wit4 = .ok (31, wit4Diag) := by with_unfolding_all rfl
  have hz : safe_int (getField wit4 "pickedItemsTotal") = 0 := by with_unfolding_all rfl
  have := rates_nonpositive_denominator W wit4 31 wit4Diag h
  exact ⟨h, this.1 (le_of_eq hz), this.2.2 hz⟩

/-- Hashable JSON values: everything except lists and dicts. -/
def hashable : JVal → Bool
  | .arr _ => false
  | .obj _ => false
  | _ => true

/-- The truthy `source` values of one tab's source list, in order, with the
same error behavior as the `collect_hosts` traversal. -/
def sourcesSeq : List JVal → Except Unit (List JVal)
  | [] => .ok []
  | s :: ss => do
      let v ← pyGetO s "source"
      if truthyO v then
        if hashable (v.getD .null) then do
          let rest ← sourcesSeq ss
          .ok ((v.getD .null) :: rest)
        else .error ()
      else
        sourcesSeq ss

/-- The truthy `source` values across all tabs, in traversal order. -/
def sourcesFromTabs : List JVal → Except Unit (List JVal)
  | [] => .ok []
  | t :: ts => do
      let sv ← pyGetO t "sources"
      let ss ← pyIter (sv.getD (.arr []))
      let l1 ← sourcesSeq ss
      let l2 ← sourcesFromTabs ts
      .ok (l1 ++ l2)

/-- All truthy `source` values a record carries, in traversal order. -/
def collectSources (metrics : JVal) : Except Unit (List JVal) :=
  match metrics with
  | .obj _ => do
      let ts ← pyIter ((getField metrics "tabs").getD (.arr []))
      sourcesFromTabs ts
  | _ => .error ()

/-- Insertion into the host set: a no-op when a Python-equal member exists. -/
def pyInsert (acc : List JVal) (v : JVal) : List JVal :=
  if acc.any (fun w => pyEq w v) then acc else acc ++ [v]

/-- The host set built from a value sequence, as a duplicate-free list. -/
def pyDedup (l : List JVal) : List JVal :=
  l.foldl pyInsert []

lemma sourceAdd_hashable (acc : List JVal) (v : JVal) (hv : hashable v = true) :
    sourceAdd acc v = .ok (pyInsert acc v) := by
  cases v <;> simp_all [sourceAdd, hashable, pyInsert]

lemma hostsFromSources_eq (ss : List JVal) (acc : List JVal) :
    hostsFromSources acc ss = (sourcesSeq ss).map (fun l => l.foldl pyInsert acc) := by
  induction ss generalizing acc with
  | nil => simp [hostsFromSources, sourcesSeq, Except.map]
  | cons s ss ih =>
    rw [hostsFromSources, sourcesSeq]
    cases hg : pyGetO s "source" with
    | error e => simp [bind, Except.bind, Except.map]
    | ok v =>
      simp only [bind, Except.bind]
      by_cases ht : truthyO v
      · simp only [ht, if_true]
        by_cases hh : hashable (v.getD .null)
        · rw [sourceAdd_hashable acc _ hh]
          simp only [bind, Except.bind, hh, if_true]
          rw [ih (pyInsert acc (v.getD .null))]
          cases hs : sourcesSeq ss with
          | error e => simp [Except.map, bind, Except.bind]
          | ok rest => simp [Except.map, bind, Except.bind, List.foldl_cons]
        · have hsa : sourceAdd acc (v.getD .null) = .error () := by
            cases hv : v.getD .null <;> simp_all [sourceAdd, hashable]
          rw [hsa]
          simp [bind, Except.bind, hh, Except.map]
      · simp only [ht, if_false, ite_false, Bool.false_eq_true]
        rw [ih acc]

lemma hostsFromTabs_eq (ts : List JVal) (acc : List JVal) :
    hostsFromTabs acc ts = (sourcesFromTabs ts).map (fun l => l.foldl pyInsert acc) := by
  induction ts generalizing acc with
  | nil => simp [hostsFromTabs, sourcesFromTabs, Except.map]
  | cons t ts ih =>
    rw [hostsFromTabs, sourcesFromTabs]
    cases hg : pyGetO t "sources" with
    | error e => simp [bind, Except.bind, Except.map]
    | ok sv =>
      simp only [bind, Except.bind]
      cases hi : pyIter (sv.getD (.arr [])) with
      | error e => simp [Except.map]
      | ok ss =>
        simp only [hi]
        rw [hostsFromSources_eq ss acc]
        cases hs : sourcesSeq ss with
        | error e => simp [Except.map]
        | ok l1 =>
          simp only [Except.map]
          rw [ih (l1.foldl pyInsert acc)]
          cases hts : sourcesFromTabs ts with
          | error e => simp [Except.map]
          | ok l2 => simp [Except.map, List.foldl_append]

lemma collect_hosts_eq (m : JVal) :
    collect_hosts m = (collectSources m).map (fun l => (pyDedup l).length) := by
  cases m with
  | obj kvs =>
    rw [collect_hosts, collectSources]
    cases hit : pyIter ((getField (.obj kvs) "tabs").getD (.arr [])) with
    | error e => simp [bind, Except.bind, Except.map]
    | ok ts =>
      simp only [bind, Except.bind]
      rw [hostsFromTabs_eq ts []]
      cases hts : sourcesFromTabs ts with
      | error e => simp [Except.map]
      | ok l => simp [Except.map, pyDedup]
  | null => simp [collect_hosts, collectSources, Except.map]
  | bool b => simp [collect_hosts, collectSources, Except.map]
  | int n => simp [collect_hosts, collectSources, Except.map]
  | float q => simp [collect_hosts, collectSources, Except.map]
  | str s => simp [collect_hosts, collectSources, Except.map]
  | arr xs => simp [collect_hosts, collectSources, Except.map]

lemma pyEq_refl_hashable (v : JVal) (hv : hashable v = true) : pyEq v v = true := by
  cases v <;> simp_all [pyEq, numVal, hashable]

lemma pyInsert_mem_mono (acc : List JVal) (a u : JVal) (hu : u ∈ acc) :
    u ∈ pyInsert acc a := by
  rw [pyInsert]
  split
  · exact hu
  · exact List.mem_append_left _ hu

lemma pyFold_mem_mono (l acc : List JVal) (u : JVal) (hu : u ∈ acc) :
    u ∈ l.foldl pyInsert acc := by
  induction l generalizing acc with
  | nil => exact hu
  | cons a l ih => exact ih (pyInsert acc a) (pyInsert_mem_mono acc a u hu)

lemma pyFold_cover (l : List JVal) (acc : List JVal)
    (hh : ∀ v ∈ l, hashable v = true) :
    ∀ v ∈ l, ∃ u ∈ l.foldl pyInsert acc, pyEq u v = true := by
  induction l generalizing acc with
  | nil => intro v hv; exact absurd hv (List.not_mem_nil v)
  | cons a l ih =>
    intro v hv
    rcases List.mem_cons.mp hv with rfl | hv
    · by_cases hax : acc.any (fun w => pyEq w v)
      · obtain ⟨u, hu, hpe⟩ := List.any_eq_true.mp hax
        refine ⟨u, ?_, by simpa using hpe⟩
        exact pyFold_mem_mono l _ u (pyInsert_mem_mono acc v u hu)
      · refine ⟨v, ?_, pyEq_refl_hashable v (hh v (List.mem_cons_self v l))⟩
        have : v ∈ pyInsert acc v := by
          rw [pyInsert, if_neg hax]
          exact List.mem_append_right _ (List.mem_singleton_self v)
        exact pyFold_mem_mono l _ v this
    · exact ih (pyInsert acc a) (fun x hx => hh x (List.mem_cons_of_mem a hx)) v hv

lemma pyFold_mem_src (l : List JVal) (acc : List JVal) (u : JVal)
    (hu : u ∈ l.foldl pyInsert acc) : u ∈ acc ∨ u ∈ l := by
  induction l generalizing acc with
  | nil => exact Or.inl hu
  | cons a l ih =>
    rcases ih (pyInsert acc a) hu with h | h
    · rw [pyInsert] at h
      split at h
      · exact Or.inl h
      · rcases List.mem_append.mp h with h | h
        · exact Or.inl h
        · have : u = a := List.mem_singleton.mp h
          exact Or.inr (this ▸ List.mem_cons_self a l)
    · exact Or.inr (List.mem_cons_of_mem a h)

lemma pyInsert_pairwise (acc : List JVal) (v : JVal)
    (h : acc.Pairwise (fun a b => pyEq a b = false)) :
    (pyInsert acc v).Pairwise (fun a b => pyEq a b = false) := by
  rw [pyInsert]
  split
  · exact h
  · rename_i hax
    rw [List.pairwise_append]
    refine ⟨h, List.pairwise_singleton _ _, ?_⟩
    intro a ha b hb
    rw [List.mem_singleton.mp hb]
    have := List.any_eq_true.not.mp hax
    push_neg at this
    have := this a ha
    simpa using this

lemma pyFold_pairwise (l acc : List JVal)
    (h : acc.Pairwise (fun a b => pyEq a b = false)) :
    (l.foldl pyInsert acc).Pairwise (fun a b => pyEq a b = false) := by
  induction l generalizing acc with
  | nil => exact h
  | cons a l ih => exact ih (pyInsert acc a) (pyInsert_pairwise acc a h)

lemma pyDedup_pairwise (l : List JVal) :
    (pyDedup l).Pairwise (fun a b => pyEq a b = false) :=
  pyFold_pairwise l [] (List.Pairwise.nil)

lemma sourcesSeq_hashable (ss : List JVal) (l : List JVal)
    (h : sourcesSeq ss = .ok l) : ∀ v ∈ l, hashable v = true := by
  induction ss generalizing l with
  | nil =>
    rw [sourcesSeq] at h
    obtain rfl : ([] : List JVal) = l := by simpa using h
    intro v hv
    exact absurd hv (List.not_mem_nil v)
  | cons s ss ih =>
    rw [sourcesSeq] at h
    cases hg : pyGetO s "source" with
    | error e => rw [hg] at h; simp [bind, Except.bind] at h
    | ok v =>
      rw [hg] at h
      simp only [bind, Except.bind] at h
      by_cases ht : truthyO v
      · simp only [ht, if_true] at h
        by_cases hh : hashable (v.getD .null)
        · simp only [hh, if_true] at h
          cases hs : sourcesSeq ss with
          | error e => rw [hs] at h; simp [bind, Except.bind] at h
          | ok rest =>
            rw [hs] at h
            simp only [bind, Except.bind, Except.ok.injEq] at h
            subst h
            intro x hx
            rcases List.mem_cons.mp hx with rfl | hx
            · exact hh
            · exact ih rest hs x hx
        · simp [hh] at h
      · simp only [ht, if_false, ite_false, Bool.false_eq_true] at h
        exact ih l h

lemma sourcesFromTabs_hashable (ts : List JVal) (l : List JVal)
    (h : sourcesFromTabs ts = .ok l) : ∀ v ∈ l, hashable v = true := by
  induction ts generalizing l with
  | nil =>
    rw [sourcesFromTabs] at h
    obtain rfl : ([] : List JVal) = l := by simpa using h
    intro v hv
    exact absurd hv (List.not_mem_nil v)
  | cons t ts ih =>
    rw [sourcesFromTabs] at h
    cases hg : pyGetO t "sources" with
    | error e => rw [hg] at h; simp [bind, Except.bind] at h
    | ok sv =>
      rw [hg] at h
      simp only [bind, Except.bind] at h
      cases hi : pyIter (sv.getD (.arr [])) with
      | error e => rw [hi] at h; simp at h
      | ok ss =>
        rw [hi] at h
        simp only at h
        cases hs : sourcesSeq ss with
        | error e => rw [hs] at h; simp at h
        | ok l1 =>
          rw [hs] at h
          simp only at h
          cases hts : sourcesFromTabs ts with
          | error e => rw [hts] at h; simp at h
          | ok l2 =>
            rw [hts] at h
            simp only [Except.ok.injEq] at h
            subst h
            intro v hv
            rcases List.mem_append.mp hv with hv | hv
            · exact sourcesSeq_hashable ss l1 hs v hv
            · exact ih l2 hts v hv

lemma collectSources_hashable (m : JVal) (l : List JVal)
    (h : collectSources m = .ok l) : ∀ v ∈ l, hashable v = true := by
  cases m with
  | obj kvs =>
    rw [collectSources] at h
    cases hit : pyIter ((getField (.obj kvs) "tabs").getD (.arr [])) with
    | error e => rw [hit] at h; simp [bind, Except.bind] at h
    | ok ts =>
      rw [hit] at h
      simp only [bind, Except.bind] at h
      exact sourcesFromTabs_hashable ts l h
  | null => simp [collectSources] at h
  | bool b => simp [collectSources] at h
  | int n => simp [collectSources] at h
  | float q => simp [collectSources] at h
  | str s => simp [collectSources] at h
  | arr xs => simp [collectSources] at h

/-- C5: when the explicit `hostCount` is absent, malformed or zero (all of
which coerce to `0`), the reported host count is the cardinality of the set
of distinct truthy `source` values across all tabs: the deduplicated
sequence is pairwise distinct, covers every collected value up to Python
equality, and contains only collected values. -/
theorem hostCount_fallback (w : Weights) (m : JVal) (s : ℚ) (d : Diag) (L : List JVal)
    (h : score_day w m = .ok (s, d))
    (hhc : safe_int (getField m "hostCount") = 0)
    (hL : collectSources m = .ok L) :
    d.hostCount = ((pyDedup L).length : ℤ) ∧
    (pyDedup L).Pairwise (fun a b => pyEq a b = false) ∧
    (∀ v ∈ L, ∃ u ∈ pyDedup L, pyEq u v = true) ∧
    (∀ u ∈ pyDedup L, u ∈ L) := by
  obtain ⟨-, -, -, -, -, -, -, -, -, hfall, -⟩ := score_day_ok_inv w m s d h
  obtain ⟨n, hch, hdn⟩ := hfall hhc
  have heq := collect_hosts_eq m
  rw [hL, Except.map, hch] at heq
  have hn : n = (pyDedup L).length := by
    simpa using heq
  refine ⟨by rw [hdn, hn], pyDedup_pairwise L, ?_, ?_⟩
  · exact pyFold_cover L [] (collectSources_hashable m L hL)
  · intro u hu
    rcases pyFold_mem_src L [] u hu with h0 | h0
    · exact absurd h0 (List.not_mem_nil u)
    · exact h0

def wit5 : JVal := .obj [("tabs", .arr [
  .obj [("sources", .arr [.obj [("source", .str "a.com")], .obj [("source", .str "b.com")]])],
  .obj [("sources", .arr [.obj [("source", .str "a.com")]])]])]

def wit5Diag : Diag := ⟨0, 0, 0, 0, 0, 0, 0, 2, 0⟩

/-- Witness for `hostCount_fallback`: sources `a.com, b.com, a.com` yield a
derived host count of `2`. -/
theorem hostCount_fallback_witness :
    score_day W wit5 = .ok (43, wit5Diag) ∧
    collectSources wit5 = .ok [.str "a.com", .str "b.com", .str "a.com"] ∧
    wit5Diag.hostCount = ((pyDedup [.str "a.com", .str "b.com", .str "a.com"]).length : ℤ) ∧
    ((pyDedup [JVal.str "a.com", JVal.str "b.com", JVal.str "a.com"]).length : ℤ) = 2 := by
  have h : score_day W wit5 = .ok (43, wit5Diag) := by with_unfolding_all rfl
  have hL : collectSources wit5 = .ok [.str "a.com", .str "b.com", .str "a.com"] := by
    with_unfolding_all rfl
  have hhc : safe_int (getField wit5 "hostCount") = 0 := by with_unfolding_all rfl
  have hmain := hostCount_fallback W wit5 43 wit5Diag _ h hhc hL
  exact ⟨h, hL, hmain.1, by with_unfolding_all rfl⟩

section StableSort

variable {α : Type} (le : α → α → Bool)

lemma insertByLE_perm (a : α) (l : List α) : List.Perm (insertByLE le a l) (a :: l) := by
  induction l with
  | nil => exact List.Perm.refl _
  | cons b l ih =>
    rw [insertByLE]
    split
    · exact (ih.cons b).trans (List.Perm.swap a b l)
    · exact List.Perm.refl _

lemma foldl_insertByLE_perm (l acc : List α) :
    List.Perm (l.foldl (fun acc a => insertByLE le a acc) acc) (acc ++ l) := by
  induction l generalizing acc with
  | nil => simp
  | cons a l ih =>
    rw [List.foldl_cons]
    refine (ih (insertByLE le a acc)).trans ?_
    refine (((insertByLE_perm le a acc)).append_right l).trans ?_
    exact List.perm_middle.symm

lemma stableSortBy_perm (l : List α) : List.Perm (stableSortBy le l) l := by
  simpa using foldl_insertByLE_perm le l []

lemma insertByLE_pairwise
    (htrans : ∀ a b c, le a b = true → le b c = true → le a c = true)
    (htot : ∀ a b, le a b = true ∨ le b a = true) (a : α) (l : List α)
    (hl : l.Pairwise (fun x y => le x y = true)) :
    (insertByLE le a l).Pairwise (fun x y => le x y = true) := by
  induction l with
  | nil => simp [insertByLE]
  | cons b l ih =>
    rcases List.pairwise_cons.mp hl with ⟨hb, hl2⟩
    rw [insertByLE]
    split
    · rename_i hba
      rw [List.pairwise_cons]
      refine ⟨?_, ih hl2⟩
      intro x hx
      have hx2 := (insertByLE_perm le a l).mem_iff.mp hx
      rcases List.mem_cons.mp hx2 with rfl | hxl
      · exact hba
      · exact hb x hxl
    · rename_i hba
      have hab : le a b = true := by
        rcases htot a b with h | h
        · exact h
        · exact absurd h hba
      rw [List.pairwise_cons]
      refine ⟨?_, hl⟩
      intro x hx
      rcases List.mem_cons.mp hx with rfl | hxl
      · exact hab
      · exact htrans a b x hab (hb x hxl)

lemma foldl_insertByLE_pairwise
    (htrans : ∀ a b c, le a b = true → le b c = true → le a c = true)
    (htot : ∀ a b, le a b = true ∨ le b a = true) (l acc : List α)
    (hacc : acc.Pairwise (fun x y => le x y = true)) :
    (l.foldl (fun acc a => insertByLE le a acc) acc).Pairwise (fun x y => le x y = true) := by
  induction l generalizing acc with
  | nil => exact hacc
  | cons a l ih =>
    rw [List.foldl_cons]
    exact ih _ (insertByLE_pairwise le htrans htot a acc hacc)

lemma stableSortBy_pairwise
    (htrans : ∀ a b c, le a b = true → le b c = true → le a c = true)
    (htot : ∀ a b, le a b = true ∨ le b a = true) (l : List α) :
    (stableSortBy le l).Pairwise (fun x y => le x y = true) :=
  foldl_insertByLE_pairwise le htrans htot l [] List.Pairwise.nil

lemma filter_insertByLE_neg (p : α → Bool) (a : α) (l : List α) (hpa : p a = false) :
    (insertByLE le a l).filter p = l.filter p := by
  induction l with
  | nil => simp [insertByLE, hpa]
  | cons b l ih =>
    rw [insertByLE]
    split
    · rw [List.filter_cons, List.filter_cons]
      cases hpb : p b <;> simp [hpb, ih]
    · simp [List.filter_cons, hpa]

lemma filter_insertByLE_pos (p : α → Bool)
    (hrefl : ∀ x, le x x = true)
    (hcompat : ∀ x y z, p x = true → p y = true → le z x = le z y)
    (a : α) (l : List α) (hpa : p a = true)
    (hl : l.Pairwise (fun x y => le x y = true)) :
    (insertByLE le a l).filter p = l.filter p ++ [a] := by
  induction l with
  | nil => simp [insertByLE, hpa]
  | cons b l ih =>
    rcases List.pairwise_cons.mp hl with ⟨hb, hl2⟩
    rw [insertByLE]
    split
    · rename_i hba
      rw [List.filter_cons, List.filter_cons]
      cases hpb : p b <;> simp [hpb, ih hl2]
    · rename_i hba
      have hpb : p b = false := by
        by_contra hc
        have hpbt : p b = true := by simpa using hc
        have hbb := hcompat a b b hpa hpbt
        rw [hrefl b] at hbb
        exact hba hbb
      have hall : ∀ x ∈ l, p x = false := by
        intro x hx
        by_contra hc
        have hpxt : p x = true := by simpa using hc
        have hxx := hcompat a x b hpa hpxt
        rw [hb x hx] at hxx
        exact hba hxx
      have hfl : (b :: l).filter p = [] := by
        rw [List.filter_eq_nil_iff]
        intro x hx
        rcases List.mem_cons.mp hx with rfl | hx
        · simp [hpb]
        · simp [hall x hx]
      rw [List.filter_cons, hpa]
      simp only [if_true]
      rw [hfl]
      rfl

lemma foldl_insertByLE_filter (p : α → Bool)
    (hrefl : ∀ x, le x x = true)
    (htrans : ∀ a b c, le a b = true → le b c = true → le a c = true)
    (htot : ∀ a b, le a b = true ∨ le b a = true)
    (hcompat : ∀ x y z, p x = true → p y = true → le z x = le z y)
    (l acc : List α) (hacc : acc.Pairwise (fun x y => le x y = true)) :
    (l.foldl (fun acc a => insertByLE le a acc) acc).filter p =
      acc.filter p ++ l.filter p := by
  induction l generalizing acc with
  | nil => simp
  | cons a l ih =>
    rw [List.foldl_cons]
    rw [ih _ (insertByLE_pairwise le htrans htot a acc hacc)]
    cases hpa : p a
    · rw [filter_insertByLE_neg le p a acc hpa]
      simp [List.filter_cons, hpa]
    · rw [filter_insertByLE_pos le p hrefl hcompat a acc hpa hacc]
      simp [List.filter_cons, hpa]

lemma stableSortBy_filter (p : α → Bool)
    (hrefl : ∀ x, le x x = true)
    (htrans : ∀ a b c, le a b = true → le b c = true → le a c = true)
    (htot : ∀ a b, le a b = true ∨ le b a = true)
    (hcompat : ∀ x y z, p x = true → p y = true → le z x = le z y)
    (l : List α) :
    (stableSortBy le l).filter p = l.filter p := by
  rw [stableSortBy, foldl_insertByLE_filter le p hrefl htrans htot hcompat l [] List.Pairwise.nil]
  rfl

end StableSort

lemma scoreLE_refl (x : Row) : scoreLE x x = true := by
  simp [scoreLE]

lemma scoreLE_trans (a b c : Row) (h1 : scoreLE a b = true) (h2 : scoreLE b c = true) :
    scoreLE a c = true := by
  simp only [scoreLE, decide_eq_true_eq] at *
  exact le_trans h1 h2

lemma scoreLE_total (a b : Row) : scoreLE a b = true ∨ scoreLE b a = true := by
  simp only [scoreLE, decide_eq_true_eq]
  exact le_total a.score b.score

def exDiag : Diag := ⟨0, 0, 0, 0, 0, 0, 0, 0, 0⟩

def exD1 : Row := ⟨"2024-01-01", 10, exDiag⟩

def exD2 : Row := ⟨"2024-01-02", 90, exDiag⟩

def exD3 : Row := ⟨"2024-01-03", 10, exDiag⟩

def exD4 : Row := ⟨"2024-01-04", 50, exDiag⟩

def exRows : List Row := [exD1, exD2, exD3, exD4]

/-- C6: the worst-N view takes the first `n` elements of a score-ascending
sort that permutes the input, is sorted, and is stable: for every score
value, the rows carrying it appear in their original relative order.  On
scores `[10, 90, 10, 50]` (dates D1..D4) with `n = 2` it returns D1 then
D3. -/
theorem worstN_stable_take :
    (∀ rows : List Row, List.Perm (sortByScore rows) rows) ∧
    (∀ rows : List Row, (sortByScore rows).Pairwise (fun a b => a.score ≤ b.score)) ∧
    (∀ (rows : List Row) (q : ℚ),
        (sortByScore rows).filter (fun r => decide (r.score = q)) =
          rows.filter (fun r => decide (r.score = q))) ∧
    (∀ (rows : List Row) (n : ℕ), worstN rows n = (sortByScore rows).take n) ∧
    worstN exRows 2 = [exD1, exD3] := by
  refine ⟨?_, ?_, ?_, fun rows n => rfl, by with_unfolding_all rfl⟩
  · intro rows
    exact stableSortBy_perm scoreLE rows
  · intro rows
    have := stableSortBy_pairwise scoreLE scoreLE_trans scoreLE_total rows
    exact this.imp (fun h => by simpa [scoreLE] using h)
  · intro rows q
    refine stableSortBy_filter scoreLE _ scoreLE_refl scoreLE_trans scoreLE_total ?_ rows
    intro x y z hx hy
    simp only [decide_eq_true_eq] at hx hy
    simp [scoreLE, hx, hy]

lemma getLast?_isSome_of_ne_nil {β : Type} (l : List β) (h : l ≠ []) :
    l.getLast?.isSome = true := by
  induction l with
  | nil => exact absurd rfl h
  | cons a l ih =>
    cases l with
    | nil => rfl
    | cons b t =>
      rw [List.getLast?_cons_cons]
      exact ih (by simp)

/-- C7: on an empty collection the aggregator reports no data (`none`) and
emits nothing; on any nonempty collection it produces a result whose latest
entry is present. -/
theorem aggregate_empty_no_data :
    aggregate [] = none ∧
    (∀ rows : List Row, rows ≠ [] →
      ∃ a, aggregate rows = some a ∧ a.latest.isSome = true) := by
  constructor
  · rfl
  · intro rows hne
    have hs : (stableSortBy dateLE rows) ≠ [] := by
      intro hcon
      have := (stableSortBy_perm dateLE rows).length_eq
      rw [hcon] at this
      exact hne (List.eq_nil_of_length_eq_zero this.symm)
    refine ⟨⟨stableSortBy dateLE rows, (stableSortBy dateLE rows).getLast?,
      trailingAvg (stableSortBy dateLE rows) 7, worstN (stableSortBy dateLE rows) 3⟩, ?_, ?_⟩
    · rw [aggregate, if_neg (by simpa [List.isEmpty_iff] using hne)]
    · exact getLast?_isSome_of_ne_nil _ hs

/-- Witness for `aggregate_empty_no_data` on a one-row collection. -/
theorem aggregate_empty_no_data_witness :
    ([exD1] : List Row) ≠ [] ∧
    ∃ a, aggregate [exD1] = some a ∧ a.latest.isSome = true := by
  have h : ([exD1] : List Row) ≠ [] := by simp
  exact ⟨h, aggregate_empty_no_data.2 [exD1] h⟩

/-- C8: the trailing-`k` average over a nonempty collection with fewer than
`k` rows is the mean of all scores; with at least `k` rows it is the mean of
the last `k` scores. -/
theorem trailingAvg_mean (rows : List Row) (k : ℕ) :
    (rows ≠ [] → rows.length < k →
      trailingAvg rows k = (rows.map Row.score).sum / (rows.length : ℚ)) ∧
    (0 < k → k ≤ rows.length →
      trailingAvg rows k = ((rows.map Row.score).drop (rows.length - k)).sum / (k : ℚ)) := by
  constructor
  · intro hne hlt
    rw [trailingAvg, Nat.sub_eq_zero_of_le (le_of_lt hlt), List.drop_zero, avg,
      if_neg (by simpa [List.isEmpty_iff] using hne)]
    simp
  · intro hk hle
    rw [trailingAvg, avg]
    have hlen : ((rows.drop (rows.length - k)).map Row.score).length = k := by
      simp only [List.length_map, List.length_drop]
      omega
    rw [if_neg (by
      intro hcon
      rw [List.isEmpty_iff] at hcon
      rw [hcon] at hlen
      simp at hlen
      omega)]
    rw [hlen, List.map_drop]

/-- Witness for `trailingAvg_mean`: four rows with `k = 7` average all four
scores, `(10 + 90 + 10 + 50) / 4 = 40`. -/
theorem trailingAvg_mean_witness :
    (exRows ≠ [] ∧ exRows.length < 7 ∧
      trailingAvg exRows 7 = (exRows.map Row.score).sum / (exRows.length : ℚ)) ∧
    trailingAvg exRows 7 = 40 := by
  have hne : exRows ≠ [] := by simp [exRows]
  have hlt : exRows.length < 7 := by norm_num [exRows]
  exact ⟨⟨hne, hlt, (trailingAvg_mean exRows 7).1 hne hlt⟩, by with_unfolding_all rfl⟩

def rsFalseStr : JVal := .obj [("runSuccess", .str "false")]

def rsTrue : JVal := .obj [("runSuccess", .bool true)]

/-- C9: the run-success term is gated on Python truthiness of the raw
`runSuccess` value, not on boolean parsing: any truthy value (including the
non-empty string `"false"` and non-zero numbers) earns the full weight, and
any falsy value (absent, `False`, `0`, `""`, `None`) earns `0`.  In
particular `{"runSuccess": "false"}` scores the same as
`{"runSuccess": true}`. -/
theorem runSuccess_truthiness :
    (∀ (w : Weights) (m : JVal),
      runContribution w m =
        if truthyO (getField m "runSuccess") then w.run_success else 0) ∧
    truthy (.str "false") = true ∧ truthy (.int 2) = true ∧
    truthyO none = false ∧ truthy (.bool false) = false ∧
    truthy (.int 0) = false ∧ truthy (.str "") = false ∧ truthy .null = false ∧
    score_day W rsFalseStr = score_day W rsTrue := by
  refine ⟨?_, by with_unfolding_all rfl, by with_unfolding_all rfl, rfl, rfl,
    by with_unfolding_all rfl, by with_unfolding_all rfl, rfl, by with_unfolding_all rfl⟩
  intro w m
  rw [runContribution]
  split
  · rw [mul_one]
  · rw [mul_zero]

def wit10 : JVal := .obj [("pickedItemsTotal", .int 0), ("dupCount", .int 5)]

def wit10Diag : Diag := ⟨0, 0, 0, 0, 0, 0, 5, 0, 0⟩

/-- C10: the diagnostics carry the raw, unclamped duplication rate — with
`pickedItemsTotal = 0` and `dupCount = 5` the reported `dupRate` is `5`,
above `1.0` — while the duplication term of the score is clamped into
`[0, duplication weight]` for every rate. -/
theorem dupRate_raw_in_diagnostics :
    score_day W wit10 = .ok (31, wit10Diag) ∧
    wit10Diag.dupRate = 5 ∧ (1 : ℚ) < wit10Diag.dupRate ∧
    (∀ (w : Weights) (r : ℚ), 0 ≤ w.duplication_penalty →
      0 ≤ dupContribution w r ∧ dupContribution w r ≤ w.duplication_penalty) := by
  refine ⟨by with_unfolding_all rfl, by with_unfolding_all rfl, by norm_num [wit10Diag], ?_⟩
  intro w r hw
  rw [dupContribution]
  have h0 := clamp01_nonneg (r / MAX_DUP_RATE)
  have h1 := clamp01_le_one (r / MAX_DUP_RATE)
  constructor
  · exact mul_nonneg hw (by linarith)
  · exact mul_le_of_le_one_right hw (by linarith)

/-- Witness for `dupRate_raw_in_diagnostics` at the default weights and the
raw rate `5`. -/
theorem dupRate_raw_in_diagnostics_witness :
    0 ≤ W.duplication_penalty ∧
    (0 ≤ dupContribution W 5 ∧ dupContribution W 5 ≤ W.duplication_penalty) := by
  have hw : 0 ≤ W.duplication_penalty := by norm_num [W]
  exact ⟨hw, dupRate_raw_in_diagnostics.2.2.2 W 5 hw⟩
